import Mathlib

/-!
Shallow embedding of the rusty-advisor metrics core, checked against its
natural-language specification.

Conventions of the embedding:
* Rust `f64` values are modelled as rationals (`ℚ`).  Every comparison and
  every arithmetic operation that the verified claims depend on is exact in
  `f64` for the inputs involved (small integers and fixed unit factors), so
  the rational model agrees with the source on those claims.  The constant
  `f64MAX` is the exact rational value of `f64::MAX`; a finite `f64` is a
  rational `v` with `v ≤ f64MAX`.
* Rust `u64` counters are modelled as `ℕ` (no overflow occurs in the
  scenarios the claims quantify over).
* `HashMap<String, String>` tag maps are modelled as association lists; the
  claims that depend on iteration order quantify over all permutations.
* Rust's `DefaultHasher` produces unspecified (but deterministic) values, so
  hash-dependent definitions are parameterised by an arbitrary function
  `hashFn : List String → ℕ`, exactly capturing what the source guarantees.
* Fallible code returns `Except` / `Option`; a Rust index-out-of-bounds
  panic is modelled as `Option.none`.
-/

/-! ### Measurement units (src/metrics/measurement_unit.rs) -/

/-- Model of `enum Dimension { None, Time, Percentage, Information }`. -/
inductive Dimension where
  | NoDim
  | Time
  | Percentage
  | Information
deriving DecidableEq, Repr

/-- Model of `struct Magnitude { name: String, factor: f64 }`. -/
structure Magnitude where
  name : String
  factor : ℚ
deriving DecidableEq, Repr

/-- Model of `struct MeasurementUnit { dimension: Dimension, magnitude: Magnitude }`. -/
structure MeasurementUnit where
  dimension : Dimension
  magnitude : Magnitude
deriving DecidableEq, Repr

/-- Model of `measurement_unit::convert`: a warning-and-no-op across
dimensions, identity for equal units, otherwise multiply by the ratio of
factors. -/
def convert (value : ℚ) (fromUnit toUnit : MeasurementUnit) : ℚ :=
  if fromUnit.dimension ≠ toUnit.dimension then
    value
  else if fromUnit = toUnit then
    value
  else
    (fromUnit.magnitude.factor / toUnit.magnitude.factor) * value

/-- Model of `struct TimeUnits`. -/
structure TimeUnits where
  nanos : MeasurementUnit
  micros : MeasurementUnit
  millis : MeasurementUnit
  seconds : MeasurementUnit

/-- Model of `struct InformationUnits`. -/
structure InformationUnits where
  bytes : MeasurementUnit
  kilobytes : MeasurementUnit
  megabytes : MeasurementUnit
  gigabytes : MeasurementUnit

/-- Model of `struct MeasurementUnits`. -/
structure MeasurementUnits where
  time : TimeUnits
  information : InformationUnits
  percentage : MeasurementUnit
  noneUnit : MeasurementUnit

/-- Model of the `MEASUREMENT_UNITS` process-lifetime singleton: the only
measurement units the program ever constructs. -/
def MEASUREMENT_UNITS : MeasurementUnits :=
  { time :=
      { nanos := ⟨Dimension.Time, ⟨"nanoseconds", 1 / 1000000000⟩⟩
        micros := ⟨Dimension.Time, ⟨"microseconds", 1 / 1000000⟩⟩
        millis := ⟨Dimension.Time, ⟨"milliseconds", 1 / 1000⟩⟩
        seconds := ⟨Dimension.Time, ⟨"seconds", 1⟩⟩ }
    information :=
      { bytes := ⟨Dimension.Information, ⟨"bytes", 1⟩⟩
        kilobytes := ⟨Dimension.Information, ⟨"kilobytes", 1024⟩⟩
        megabytes := ⟨Dimension.Information, ⟨"megabytes", 1048576⟩⟩
        gigabytes := ⟨Dimension.Information, ⟨"gigabytes", 1073741824⟩⟩ }
    percentage := ⟨Dimension.Percentage, ⟨"percentage", 1⟩⟩
    noneUnit := ⟨Dimension.NoDim, ⟨"none", 1⟩⟩ }

/-- The list of all measurement-unit singletons; `&'static MeasurementUnit`
references in the source can only point at these. -/
def staticMeasurementUnits : List MeasurementUnit :=
  [MEASUREMENT_UNITS.time.nanos, MEASUREMENT_UNITS.time.micros,
   MEASUREMENT_UNITS.time.millis, MEASUREMENT_UNITS.time.seconds,
   MEASUREMENT_UNITS.information.bytes, MEASUREMENT_UNITS.information.kilobytes,
   MEASUREMENT_UNITS.information.megabytes, MEASUREMENT_UNITS.information.gigabytes,
   MEASUREMENT_UNITS.percentage, MEASUREMENT_UNITS.noneUnit]

lemma staticMeasurementUnits_factor_pos :
    ∀ u ∈ staticMeasurementUnits, 0 < u.magnitude.factor := by
  intro u hu
  fin_cases hu <;> norm_num [MEASUREMENT_UNITS]

lemma convert_nonneg (u : MeasurementUnit) (hu : u ∈ staticMeasurementUnits)
    (v : ℚ) (hv : 0 ≤ v) :
    0 ≤ convert v u MEASUREMENT_UNITS.time.seconds := by
  unfold convert
  split
  · exact hv
  · split
    · exact hv
    · exact mul_nonneg
        (div_nonneg (le_of_lt (staticMeasurementUnits_factor_pos u hu))
          (by norm_num [MEASUREMENT_UNITS])) hv

/-- C8: across dimensions `convert` is the identity; within a dimension it
multiplies by `from.factor / to.factor`, and for equal units it returns the
input unchanged. -/
theorem convert_spec (v : ℚ) (fromUnit toUnit : MeasurementUnit)
    (hfrom : fromUnit ∈ staticMeasurementUnits)
    (hto : toUnit ∈ staticMeasurementUnits) :
    (fromUnit.dimension ≠ toUnit.dimension → convert v fromUnit toUnit = v) ∧
    (fromUnit.dimension = toUnit.dimension →
      convert v fromUnit toUnit =
        fromUnit.magnitude.factor / toUnit.magnitude.factor * v) ∧
    (fromUnit = toUnit → convert v fromUnit toUnit = v) := by
  refine ⟨fun hne => ?_, fun heq => ?_, fun heq => ?_⟩
  · simp [convert, hne]
  · by_cases hu : fromUnit = toUnit
    · subst hu
      have hf : fromUnit.magnitude.factor ≠ 0 :=
        ne_of_gt (staticMeasurementUnits_factor_pos fromUnit hfrom)
      simp [convert, div_self hf]
    · simp [convert, heq, hu]
  · subst heq
    simp [convert]

/-- Closed instance of `convert_spec` at nanoseconds → seconds. -/
theorem convert_spec_witness :
    convert 7 MEASUREMENT_UNITS.time.nanos MEASUREMENT_UNITS.time.seconds =
      MEASUREMENT_UNITS.time.nanos.magnitude.factor /
        MEASUREMENT_UNITS.time.seconds.magnitude.factor * 7 :=
  (convert_spec 7 MEASUREMENT_UNITS.time.nanos MEASUREMENT_UNITS.time.seconds
    (List.Mem.head _)
    (List.Mem.tail _ (List.Mem.tail _ (List.Mem.tail _ (List.Mem.head _))))).2.1 rfl

/-! ### Prometheus histogram projection
(src/exporters/prometheus_exporter/metrics/prometheus_histogram.rs) -/

/-- Exact rational value of the Rust constant `f64::MAX`
(equal to `2 ^ 1024 - 2 ^ 971`, see `f64MAX_eq`); every finite `f64` is at
most this value. -/
def f64MAX : ℚ :=
  179769313486231570814527423731704356798070567525844996598917476803157260780028538760589558632766878171540458953514382464234321326889464182768467546703537516986049910576551282076245490090389328944075868508455133942304583236903222948165808559332123348274797826204144723168738177180919299881250404026184124858368

lemma f64MAX_eq : f64MAX = 2 ^ 1024 - 2 ^ 971 := by
  norm_num [f64MAX]

/-- Model of `type BucketHolder = Vec<(f64, u64)>`: pairs of an upper bound
and a cumulative count. -/
abbrev BucketHolder := List (ℚ × ℕ)

/-- Model of `struct PrometheusHistogram` (the `metric_description` field is
omitted: no verified claim mentions it). -/
structure PrometheusHistogram where
  buckets : BucketHolder
  count : ℕ
  sum : ℚ
  timestamp_ms : ℕ
deriving DecidableEq, Repr

/-- Model of `HistogramSample`: the ascending `(value, multiplicity)` pairs
produced by `hdr_histogram.iter_recorded()` together with the sample's
`histogram_settings.measurement_unit` (a `&'static` singleton reference in
the source). -/
structure HistogramSample where
  records : List (ℕ × ℕ)
  measurement_unit : MeasurementUnit
deriving DecidableEq, Repr

/-- Model of `PrometheusHistogram::create_buckets`: the configured bounds,
each with a zero count, then a terminal `(f64::MAX, 0)` bucket. -/
def create_buckets (bucketBounds : List ℚ) : BucketHolder :=
  bucketBounds.map (fun b => (b, 0)) ++ [(f64MAX, 0)]

/-- Model of `PrometheusHistogram::new` (the wall-clock
`time::current_millis()` is passed in as `now_ms`). -/
def PrometheusHistogram.new (bucketBounds : List ℚ) (now_ms : ℕ) :
    PrometheusHistogram :=
  { buckets := create_buckets bucketBounds
    count := 0
    sum := 0
    timestamp_ms := now_ms }

/-- Helper: `self.buckets[i].1 += c` as a pure list operation. -/
def bumpAt : BucketHolder → ℕ → ℕ → BucketHolder
  | [], _, _ => []
  | b :: rest, 0, c => (b.1, b.2 + c) :: rest
  | b :: rest, i + 1, c => b :: bumpAt rest i c

/-- Model of the bucket-advancing `while` loop inside `add_snapshot`:

    while value > next_bucket && next_bucket_index <= self.buckets.len() - 1 {
        self.buckets[next_bucket_index].1 += count_samples;
        next_bucket_index += 1;
        next_bucket = self.buckets[next_bucket_index].0;
    }

The state is `(buckets, next_bucket_index, next_bucket)`.  Reading
`self.buckets[next_bucket_index]` past the end of the vector is a Rust
panic, modelled as `none`.  The `fuel` argument is only a structural
termination device; callers pass `buckets.length + 1`, which is never
exhausted because the index grows strictly on every iteration (see
`advance_isSome_of_fuel` below). -/
def advance (value : ℚ) (count_samples : ℕ) :
    ℕ → BucketHolder → ℕ → ℚ → Option (BucketHolder × ℕ × ℚ)
  | 0, _, _, _ => none
  | fuel + 1, buckets, next_bucket_index, next_bucket =>
    if value > next_bucket ∧ next_bucket_index ≤ buckets.length - 1 then
      match (bumpAt buckets next_bucket_index count_samples).get? (next_bucket_index + 1) with
      | some b =>
        advance value count_samples fuel
          (bumpAt buckets next_bucket_index count_samples) (next_bucket_index + 1) b.1
      | none => none
    else
      some (buckets, next_bucket_index, next_bucket)

/-- Model of the `for record in hdr_histogram.iter_recorded()` loop of
`add_snapshot`: each recorded value is unit-converted to seconds, the bucket
pointer is advanced, and `sum_samples`/`count_samples` are accumulated. -/
def processRecords (u : MeasurementUnit) :
    List (ℕ × ℕ) → BucketHolder → ℕ → ℚ → ℚ → ℕ →
    Option (BucketHolder × ℕ × ℚ × ℕ)
  | [], buckets, next_bucket_index, _next_bucket, sum_samples, count_samples =>
    some (buckets, next_bucket_index, sum_samples, count_samples)
  | r :: rest, buckets, next_bucket_index, next_bucket, sum_samples, count_samples =>
    match advance (convert (r.1 : ℚ) u MEASUREMENT_UNITS.time.seconds) count_samples
        (buckets.length + 1) buckets next_bucket_index next_bucket with
    | none => none
    | some (buckets1, idx1, nb1) =>
      processRecords u rest buckets1 idx1 nb1
        (sum_samples + convert (r.1 : ℚ) u MEASUREMENT_UNITS.time.seconds * (r.2 : ℚ))
        (count_samples + r.2)

/-- Helper for the trailing loop of `add_snapshot`:

    for remaining_bucket in &mut self.buckets[next_bucket_index..] {
        remaining_bucket.1 += count_samples;
    }
-/
def bumpFrom (l : BucketHolder) (i c : ℕ) : BucketHolder :=
  l.take i ++ (l.drop i).map (fun b => (b.1, b.2 + c))

/-- Model of `PrometheusHistogram::add_snapshot`.  The early return on an
empty bucket vector, the record sweep, the trailing bucket update, and the
`sum`/`count`/`timestamp_ms` updates follow the source line by line; a
panic inside the sweep is `none`. -/
def add_snapshot (h : PrometheusHistogram) (histogram_sample : HistogramSample)
    (timestamp_in_millis : ℕ) : Option PrometheusHistogram :=
  match h.buckets with
  | [] => some h
  | b0 :: _ =>
    match processRecords histogram_sample.measurement_unit
        histogram_sample.records h.buckets 0 b0.1 0 0 with
    | none => none
    | some (buckets1, idx1, sum_samples, count_samples) =>
      some { buckets := bumpFrom buckets1 idx1 count_samples
             count := h.count + count_samples
             sum := h.sum + sum_samples
             timestamp_ms := timestamp_in_millis }

/-! ### Concrete projection scenarios (claim C1) -/

/-- First concrete sample of the spec scenario: seconds
`[(0,3),(1,5),(3,1),(5,10),(6,7)]` recorded in a seconds-unit histogram. -/
def sample1 : HistogramSample :=
  ⟨[(0, 3), (1, 5), (3, 1), (5, 10), (6, 7)], MEASUREMENT_UNITS.time.seconds⟩

/-- Second concrete sample of the spec scenario. -/
def sample2 : HistogramSample :=
  ⟨[(0, 3), (1, 20), (3, 13), (4, 45), (5, 71), (6, 51), (7, 27), (8, 35),
    (9, 115), (12, 23)], MEASUREMENT_UNITS.time.seconds⟩

/-- All-zero starting state with bucket upper bounds `{2,4,6,8,10}` (the
terminal `f64::MAX` bucket is appended by `create_buckets`). -/
def hist0 : PrometheusHistogram := PrometheusHistogram.new [2, 4, 6, 8, 10] 0

/-- Expected state after projecting `sample1`. -/
def hist1 : PrometheusHistogram :=
  ⟨[(2, 8), (4, 9), (6, 26), (8, 26), (10, 26), (f64MAX, 26)], 26, 100, 11⟩

/-- Expected state after further projecting `sample2`. -/
def hist2 : PrometheusHistogram :=
  ⟨[(2, 31), (4, 90), (6, 229), (8, 291), (10, 406), (f64MAX, 429)], 429, 2780, 12⟩

set_option maxHeartbeats 1000000 in
/-- C1: from the all-zero `{2,4,6,8,10}` histogram, projecting
`[(0,3),(1,5),(3,1),(5,10),(6,7)]` yields cumulative counts
`{2↦8, 4↦9, 6↦26, 8↦26, 10↦26, +Inf↦26}` with `sum = 100`, `count = 26`;
a further projection of
`[(0,3),(1,20),(3,13),(4,45),(5,71),(6,51),(7,27),(8,35),(9,115),(12,23)]`
yields `{2↦31, 4↦90, 6↦229, 8↦291, 10↦406, +Inf↦429}` with `sum = 2780`,
`count = 429`. -/
theorem add_snapshot_concrete_scenarios :
    add_snapshot hist0 sample1 11 = some hist1 ∧
    add_snapshot hist1 sample2 12 = some hist2 := by
  constructor <;>
    norm_num [add_snapshot, hist0, hist1, hist2, sample1, sample2,
      PrometheusHistogram.new, create_buckets, processRecords, advance, bumpAt,
      bumpFrom, convert, MEASUREMENT_UNITS, f64MAX]

/-! ### Frame effect of an empty sample (claim C7) -/

lemma bumpFrom_zero (l : BucketHolder) (i : ℕ) : bumpFrom l i 0 = l := by
  simp [bumpFrom]

/-- C7: projecting a histogram sample with no recorded values leaves every
bucket count, `sum` and `count` unchanged and only sets `timestamp_ms` to
the supplied snapshot timestamp.  (The bucket vector of every constructed
`PrometheusHistogram` is non-empty, since `create_buckets` always appends
the terminal `f64::MAX` bucket; on an empty bucket vector the source takes
the early-return path instead and does not touch the timestamp.) -/
theorem add_snapshot_empty_sample (h : PrometheusHistogram)
    (u : MeasurementUnit) (ts : ℕ) (hne : h.buckets ≠ []) :
    add_snapshot h ⟨[], u⟩ ts = some { h with timestamp_ms := ts } := by
  obtain ⟨b0, rest, hb⟩ := List.exists_cons_of_ne_nil hne
  simp [add_snapshot, hb, processRecords, bumpFrom_zero]

/-- Closed instance of `add_snapshot_empty_sample`. -/
theorem add_snapshot_empty_sample_witness :
    add_snapshot (PrometheusHistogram.new [2] 5)
        ⟨[], MEASUREMENT_UNITS.time.seconds⟩ 9 =
      some { PrometheusHistogram.new [2] 5 with timestamp_ms := 9 } :=
  add_snapshot_empty_sample _ _ 9 (by decide)

/-! ### Sweep bookkeeping lemmas for `add_snapshot` -/

/-- Cumulative count stored in bucket `j` (0 outside the vector). -/
def cnt (l : BucketHolder) (j : ℕ) : ℕ := (l.map Prod.snd).getD j 0

lemma length_bumpAt (l : BucketHolder) (i c : ℕ) :
    (bumpAt l i c).length = l.length := by
  induction l generalizing i with
  | nil => rfl
  | cons b rest ih =>
    cases i with
    | zero => rfl
    | succ i => simp [bumpAt, ih]

lemma map_fst_bumpAt (l : BucketHolder) (i c : ℕ) :
    (bumpAt l i c).map Prod.fst = l.map Prod.fst := by
  induction l generalizing i with
  | nil => rfl
  | cons b rest ih =>
    cases i with
    | zero => rfl
    | succ i => simp [bumpAt, ih]

lemma cnt_nil (j : ℕ) : cnt [] j = 0 := by
  cases j <;> rfl

lemma cnt_cons_zero (b : ℚ × ℕ) (rest : BucketHolder) : cnt (b :: rest) 0 = b.2 := rfl

lemma cnt_cons_succ (b : ℚ × ℕ) (rest : BucketHolder) (j : ℕ) :
    cnt (b :: rest) (j + 1) = cnt rest j := rfl

lemma cnt_bumpAt_ne (l : BucketHolder) (i c j : ℕ) (hne : j ≠ i) :
    cnt (bumpAt l i c) j = cnt l j := by
  induction l generalizing i j with
  | nil => simp [bumpAt]
  | cons b rest ih =>
    cases i with
    | zero =>
      cases j with
      | zero => exact absurd rfl hne
      | succ j => simp [bumpAt, cnt_cons_succ]
    | succ i =>
      cases j with
      | zero => simp [bumpAt, cnt_cons_zero]
      | succ j =>
        simp only [bumpAt, cnt_cons_succ]
        exact ih i j (fun hji => hne (by omega))

lemma cnt_bumpAt_self (l : BucketHolder) (i c : ℕ) (hi : i < l.length) :
    cnt (bumpAt l i c) i = cnt l i + c := by
  induction l generalizing i with
  | nil => simp at hi
  | cons b rest ih =>
    cases i with
    | zero => simp [bumpAt, cnt_cons_zero]
    | succ i =>
      simp only [bumpAt, cnt_cons_succ]
      exact ih i (by simpa using hi)

lemma length_bumpFrom (l : BucketHolder) (i c : ℕ) :
    (bumpFrom l i c).length = l.length := by
  simp [bumpFrom]
  omega

lemma map_fst_bumpFrom (l : BucketHolder) (i c : ℕ) :
    (bumpFrom l i c).map Prod.fst = l.map Prod.fst := by
  simp only [bumpFrom, List.map_append, List.map_map]
  have : (Prod.fst ∘ fun b : ℚ × ℕ => (b.1, b.2 + c)) = Prod.fst := rfl
  rw [this, ← List.map_append, List.take_append_drop]

lemma cnt_bumpFrom_lt (l : BucketHolder) (i c j : ℕ) (hj : j < i) :
    cnt (bumpFrom l i c) j = cnt l j := by
  induction l generalizing i j with
  | nil => simp [bumpFrom, cnt_nil]
  | cons b rest ih =>
    cases i with
    | zero => omega
    | succ i =>
      cases j with
      | zero => simp [bumpFrom, cnt_cons_zero]
      | succ j =>
        have := ih i j (by omega)
        simpa [bumpFrom, cnt_cons_succ] using this

lemma cnt_bumpFrom_ge (l : BucketHolder) (i c j : ℕ) (hj : i ≤ j) (hjl : j < l.length) :
    cnt (bumpFrom l i c) j = cnt l j + c := by
  induction l generalizing i j with
  | nil => simp at hjl
  | cons b rest ih =>
    cases i with
    | zero =>
      cases j with
      | zero => simp [bumpFrom, cnt_cons_zero]
      | succ j =>
        have := ih 0 j (by omega) (by simpa using hjl)
        simpa [bumpFrom, cnt_cons_succ] using this
    | succ i =>
      cases j with
      | zero => omega
      | succ j =>
        have := ih i j (by omega) (by simpa using hjl)
        simpa [bumpFrom, cnt_cons_succ] using this

/-- Invariant of the bucket-advancing sweep, relating the working bucket
vector `C` to the vector `B` the current `add_snapshot` call started from:
bounds and length are untouched, buckets at or beyond the pointer still hold
their original counts, buckets strictly before the pointer were incremented
exactly once each, by amounts that are non-decreasing from left to right and
bounded by the running `count_samples` value `c`. -/
structure SweepInv (B C : BucketHolder) (idx c : ℕ) : Prop where
  len : C.length = B.length
  bounds : C.map Prod.fst = B.map Prod.fst
  idx_lt : idx < C.length
  untouched : ∀ j, idx ≤ j → cnt C j = cnt B j
  mono : ∀ j1 j2, j1 ≤ j2 → j2 < idx → cnt C j1 - cnt B j1 ≤ cnt C j2 - cnt B j2
  le_c : ∀ j, j < idx → cnt C j ≤ cnt B j + c
  ge : ∀ j, cnt B j ≤ cnt C j

lemma SweepInv.relax {B C : BucketHolder} {idx c c2 : ℕ}
    (h : SweepInv B C idx c) (hc : c ≤ c2) : SweepInv B C idx c2 :=
  { h with le_c := fun j hj => le_trans (h.le_c j hj) (by omega) }

lemma sweepInv_refl (B : BucketHolder) (hne : 0 < B.length) (c : ℕ) :
    SweepInv B B 0 c :=
  { len := rfl
    bounds := rfl
    idx_lt := hne
    untouched := fun _ _ => rfl
    mono := fun _ _ _ h => by omega
    le_c := fun _ h => by omega
    ge := fun _ => le_refl _ }
/-- One bump step of the sweep preserves the invariant and moves the pointer
one bucket to the right. -/
lemma SweepInv.bump {B C : BucketHolder} {idx c : ℕ}
    (h : SweepInv B C idx c) (hstep : idx + 1 < C.length) :
    SweepInv B (bumpAt C idx c) (idx + 1) c := by
  have hidx : idx < C.length := h.idx_lt
  have hself : cnt (bumpAt C idx c) idx = cnt C idx + c := cnt_bumpAt_self C idx c hidx
  have huntouched_idx : cnt C idx = cnt B idx := h.untouched idx (le_refl idx)
  refine
    { len := by rw [length_bumpAt]; exact h.len
      bounds := by rw [map_fst_bumpAt]; exact h.bounds
      idx_lt := by rw [length_bumpAt]; exact hstep
      untouched := fun j hj => ?_
      mono := fun j1 j2 h12 hj2 => ?_
      le_c := fun j hj => ?_
      ge := fun j => ?_ }
  · rw [cnt_bumpAt_ne C idx c j (by omega)]
    exact h.untouched j (by omega)
  · rcases Nat.lt_or_ge j2 idx with hj2lt | hj2ge
    · rw [cnt_bumpAt_ne C idx c j1 (by omega), cnt_bumpAt_ne C idx c j2 (by omega)]
      exact h.mono j1 j2 h12 hj2lt
    · have hj2eq : j2 = idx := by omega
      rw [hj2eq, hself]
      rcases Nat.lt_or_ge j1 idx with hj1lt | hj1ge
      · rw [cnt_bumpAt_ne C idx c j1 (by omega)]
        have h1 := h.le_c j1 hj1lt
        have h2 := h.ge j1
        omega
      · have hj1eq : j1 = idx := by omega
        rw [hj1eq, hself]
  · rcases Nat.lt_or_ge j idx with hjlt | hjge
    · rw [cnt_bumpAt_ne C idx c j (by omega)]
      exact h.le_c j hjlt
    · have hjeq : j = idx := by omega
      subst hjeq
      rw [hself, huntouched_idx]
  · rcases Nat.lt_or_ge j idx with hjlt | hjge
    · rw [cnt_bumpAt_ne C idx c j (by omega)]
      exact h.ge j
    · rcases Nat.eq_or_lt_of_le hjge with hjeq | hjgt
      · rw [← hjeq, hself]
        have := h.ge idx
        omega
      · rw [cnt_bumpAt_ne C idx c j (by omega)]
        exact h.ge j

/-- A successful run of the advancing loop preserves the sweep invariant and
never moves the pointer backwards. -/
lemma advance_sweepInv {value : ℚ} {c : ℕ} {B : BucketHolder} :
    ∀ (fuel : ℕ) {C : BucketHolder} {idx : ℕ} {nb : ℚ}
      {C' : BucketHolder} {idx' : ℕ} {nb' : ℚ},
      advance value c fuel C idx nb = some (C', idx', nb') →
      SweepInv B C idx c →
      SweepInv B C' idx' c ∧ idx ≤ idx'
  | 0, C, idx, nb, C', idx', nb', heq, _ => by
    simp [advance] at heq
  | fuel + 1, C, idx, nb, C', idx', nb', heq, hinv => by
    rw [advance] at heq
    by_cases hcond : value > nb ∧ idx ≤ C.length - 1
    · rw [if_pos hcond] at heq
      cases hg : (bumpAt C idx c).get? (idx + 1) with
      | none =>
        rw [hg] at heq
        simp at heq
      | some b =>
        rw [hg] at heq
        have hlt : idx + 1 < C.length := by
          have hb := (List.get?_eq_some.mp hg).1
          rwa [length_bumpAt] at hb
        have hrec := advance_sweepInv fuel heq (hinv.bump hlt)
        exact ⟨hrec.1, by omega⟩
    · rw [if_neg hcond] at heq
      cases heq
      exact ⟨hinv, le_refl idx⟩

/-- Processing the recorded values of a sample preserves the sweep
invariant; `count_samples` only grows, and (for a real, singleton
measurement unit) `sum_samples` only grows. -/
lemma processRecords_sweepInv {u : MeasurementUnit} {B : BucketHolder} :
    ∀ (records : List (ℕ × ℕ)) {C : BucketHolder} {idx : ℕ} {nb : ℚ} {s : ℚ} {c : ℕ}
      {C' : BucketHolder} {idx' : ℕ} {s' : ℚ} {c' : ℕ},
      processRecords u records C idx nb s c = some (C', idx', s', c') →
      SweepInv B C idx c →
      SweepInv B C' idx' c' ∧ c ≤ c' ∧ (u ∈ staticMeasurementUnits → s ≤ s')
  | [], C, idx, nb, s, c, C', idx', s', c', heq, hinv => by
    simp only [processRecords, Option.some.injEq, Prod.mk.injEq] at heq
    obtain ⟨h1, h2, h3, h4⟩ := heq
    subst h1; subst h2; subst h3; subst h4
    exact ⟨hinv, le_refl c, fun _ => le_refl s⟩
  | r :: rest, C, idx, nb, s, c, C', idx', s', c', heq, hinv => by
    rw [processRecords] at heq
    cases ha : advance (convert (r.1 : ℚ) u MEASUREMENT_UNITS.time.seconds) c
        (C.length + 1) C idx nb with
    | none =>
      rw [ha] at heq
      simp at heq
    | some t =>
      obtain ⟨C1, idx1, nb1⟩ := t
      rw [ha] at heq
      have hadv := advance_sweepInv (B := B) (C.length + 1) ha hinv
      have hinv1 : SweepInv B C1 idx1 (c + r.2) := hadv.1.relax (by omega)
      have hrec := processRecords_sweepInv rest heq hinv1
      refine ⟨hrec.1, by omega, fun hu => ?_⟩
      have hval : 0 ≤ convert (r.1 : ℚ) u MEASUREMENT_UNITS.time.seconds :=
        convert_nonneg u hu _ (Nat.cast_nonneg r.1)
      have hmul : 0 ≤ convert (r.1 : ℚ) u MEASUREMENT_UNITS.time.seconds * (r.2 : ℚ) :=
        mul_nonneg hval (Nat.cast_nonneg r.2)
      have hs := hrec.2.2 hu
      linarith

lemma cnt_oob (l : BucketHolder) (j : ℕ) (hj : l.length ≤ j) : cnt l j = 0 := by
  unfold cnt
  exact List.getD_eq_default _ _ (by simpa using hj)

lemma cnt_eq_get (l : BucketHolder) (j : ℕ) (hj : j < l.length) :
    cnt l j = (l.map Prod.snd).get ⟨j, by simpa using hj⟩ := by
  unfold cnt
  rw [List.getD_eq_getElem?_getD, List.getElem?_eq_getElem (by simpa using hj)]
  rfl

/-- The per-index reading of bucket-count monotonicity. -/
lemma chain'_iff_cnt (l : BucketHolder) :
    List.Chain' (· ≤ ·) (l.map Prod.snd) ↔
      ∀ j, j + 1 < l.length → cnt l j ≤ cnt l (j + 1) := by
  rw [List.chain'_iff_get]
  constructor
  · intro H j hj
    rw [cnt_eq_get l j (by omega), cnt_eq_get l (j + 1) hj]
    exact H j (by simpa using (by omega : j < l.length - 1))
  · intro H j hj
    have hj2 : j + 1 < l.length := by simpa using Nat.add_lt_of_lt_sub (by simpa using hj)
    have := H j hj2
    rwa [cnt_eq_get l j (by omega), cnt_eq_get l (j + 1) hj2] at this

/-- Effect of one successful `add_snapshot` call on a histogram with a
non-empty bucket vector: bounds are unchanged, `count` grows by the total
multiplicity `c1` of the sample, the last bucket count grows by exactly
`c1`, every bucket count is non-decreasing, bucket-count monotonicity in the
index is preserved, `sum` is non-decreasing (for a singleton unit), and the
timestamp is set. -/
lemma add_snapshot_step {h : PrometheusHistogram} {sample : HistogramSample}
    {ts : ℕ} {h' : PrometheusHistogram} (hne : h.buckets ≠ [])
    (hs : add_snapshot h sample ts = some h') :
    ∃ c1 : ℕ,
      h'.buckets.map Prod.fst = h.buckets.map Prod.fst ∧
      h'.count = h.count + c1 ∧
      (sample.measurement_unit ∈ staticMeasurementUnits → h.sum ≤ h'.sum) ∧
      (∀ j, cnt h.buckets j ≤ cnt h'.buckets j) ∧
      cnt h'.buckets (h.buckets.length - 1) =
        cnt h.buckets (h.buckets.length - 1) + c1 ∧
      (List.Chain' (· ≤ ·) (h.buckets.map Prod.snd) →
        List.Chain' (· ≤ ·) (h'.buckets.map Prod.snd)) ∧
      h'.timestamp_ms = ts := by
  rcases hb : h.buckets with _ | ⟨b0, rest⟩
  · exact absurd hb hne
  · simp only [add_snapshot, hb] at hs
    cases hp : processRecords sample.measurement_unit sample.records
        (b0 :: rest) 0 b0.1 0 0 with
    | none =>
      rw [hp] at hs
      simp at hs
    | some t =>
      obtain ⟨C1, idx1, s1, c1⟩ := t
      rw [hp] at hs
      simp only [Option.some.injEq] at hs
      subst hs
      have hpos : 0 < (b0 :: rest).length := by simp
      have hinv0 : SweepInv (b0 :: rest) (b0 :: rest) 0 0 := sweepInv_refl _ hpos 0
      obtain ⟨hinv, hc, hsum⟩ := processRecords_sweepInv sample.records hp hinv0
      have hlen : C1.length = (b0 :: rest).length := hinv.len
      have hidx : idx1 < C1.length := hinv.idx_lt
      refine ⟨c1, ?_, rfl, ?_, ?_, ?_, ?_, rfl⟩
      · simpa [map_fst_bumpFrom] using hinv.bounds
      · intro hu
        have := hsum hu
        simp only
        linarith
      · intro j
        rcases Nat.lt_or_ge j idx1 with hj | hj
        · rw [cnt_bumpFrom_lt C1 idx1 c1 j hj]
          exact hinv.ge j
        · rcases Nat.lt_or_ge j C1.length with hjl | hjl
          · rw [cnt_bumpFrom_ge C1 idx1 c1 j hj hjl]
            have := hinv.ge j
            omega
          · rw [cnt_oob (bumpFrom C1 idx1 c1) j (by rwa [length_bumpFrom]),
              cnt_oob (b0 :: rest) j (by omega)]
      · have hj0 : idx1 ≤ (b0 :: rest).length - 1 := by omega
        have hj0l : (b0 :: rest).length - 1 < C1.length := by
          rw [hlen]
          simp
        rw [cnt_bumpFrom_ge C1 idx1 c1 _ hj0 hj0l,
          hinv.untouched ((b0 :: rest).length - 1) hj0]
      · intro hchain
        rw [chain'_iff_cnt] at hchain
        rw [chain'_iff_cnt]
        intro j hj
        rw [length_bumpFrom] at hj
        have hjB : j + 1 < (b0 :: rest).length := by omega
        have hchainj := hchain j hjB
        rcases Nat.lt_or_ge (j + 1) idx1 with hlt | hge
        · rw [cnt_bumpFrom_lt C1 idx1 c1 j (by omega),
            cnt_bumpFrom_lt C1 idx1 c1 (j + 1) hlt]
          have hm := hinv.mono j (j + 1) (by omega) hlt
          have hg1 := hinv.ge j
          have hg2 := hinv.ge (j + 1)
          omega
        · rcases Nat.lt_or_ge j idx1 with hlt2 | hge2
          · rw [cnt_bumpFrom_lt C1 idx1 c1 j hlt2,
              cnt_bumpFrom_ge C1 idx1 c1 (j + 1) hge (by omega),
              hinv.untouched (j + 1) hge]
            have hl := hinv.le_c j hlt2
            omega
          · rw [cnt_bumpFrom_ge C1 idx1 c1 j hge2 (by omega),
              cnt_bumpFrom_ge C1 idx1 c1 (j + 1) hge (by omega),
              hinv.untouched j hge2, hinv.untouched (j + 1) hge]
            omega

lemma cnt_create_buckets (bucketBounds : List ℚ) (j : ℕ) :
    cnt (create_buckets bucketBounds) j = 0 := by
  induction bucketBounds generalizing j with
  | nil =>
    cases j with
    | zero => rfl
    | succ j => exact cnt_nil j
  | cons b bs ih =>
    cases j with
    | zero => rfl
    | succ j =>
      have : create_buckets (b :: bs) = (b, 0) :: create_buckets bs := by
        simp [create_buckets]
      rw [this, cnt_cons_succ]
      exact ih j

lemma getLast?_counts (l : BucketHolder) (hne : l ≠ []) :
    (l.map Prod.snd).getLast? = some (cnt l (l.length - 1)) := by
  have hlen : 0 < l.length := List.length_pos.mpr hne
  rw [List.getLast?_eq_getElem?]
  simp only [List.length_map]
  rw [List.getElem?_eq_getElem (by simpa using (by omega : l.length - 1 < l.length)),
    cnt_eq_get l (l.length - 1) (by omega), List.get_eq_getElem]

/-- States of a `PrometheusHistogram` reachable in the program: constructed
by `PrometheusHistogram::new` and evolved by successful `add_snapshot` calls
on samples whose measurement unit is one of the process singletons. -/
inductive Reachable : PrometheusHistogram → Prop where
  | init (bucketBounds : List ℚ) (now_ms : ℕ) :
      Reachable (PrometheusHistogram.new bucketBounds now_ms)
  | step (h : PrometheusHistogram) (sample : HistogramSample) (ts : ℕ)
      (h' : PrometheusHistogram) (hr : Reachable h)
      (hwf : sample.measurement_unit ∈ staticMeasurementUnits)
      (hs : add_snapshot h sample ts = some h') : Reachable h'

/-- Structural well-formedness maintained by every reachable state. -/
def histOK (h : PrometheusHistogram) : Prop :=
  h.buckets ≠ [] ∧
  cnt h.buckets (h.buckets.length - 1) = h.count ∧
  List.Chain' (· ≤ ·) (h.buckets.map Prod.snd)

lemma histOK_new (bucketBounds : List ℚ) (now_ms : ℕ) :
    histOK (PrometheusHistogram.new bucketBounds now_ms) := by
  refine ⟨by simp [PrometheusHistogram.new, create_buckets], ?_, ?_⟩
  · exact cnt_create_buckets bucketBounds _
  · rw [chain'_iff_cnt]
    intro j hj
    simp only [PrometheusHistogram.new] at hj ⊢
    rw [cnt_create_buckets, cnt_create_buckets]

lemma histOK_step {h : PrometheusHistogram} {sample : HistogramSample}
    {ts : ℕ} {h' : PrometheusHistogram} (hok : histOK h)
    (hs : add_snapshot h sample ts = some h') : histOK h' := by
  obtain ⟨hne, hlast, hchain⟩ := hok
  obtain ⟨c1, hfst, hcount, _, _, hlastStep, hchainStep, _⟩ :=
    add_snapshot_step hne hs
  have hlen : h'.buckets.length = h.buckets.length := by
    have := congrArg List.length hfst
    simpa using this
  refine ⟨?_, ?_, hchainStep hchain⟩
  · intro hnil
    rw [hnil] at hlen
    exact hne (List.eq_nil_of_length_eq_zero (by simpa using hlen.symm))
  · rw [hlen, hlastStep, hlast, hcount]

lemma reachable_histOK {h : PrometheusHistogram} (hr : Reachable h) :
    histOK h := by
  induction hr with
  | init bucketBounds now_ms => exact histOK_new bucketBounds now_ms
  | step h sample ts h' hr hwf hs ih => exact histOK_step ih hs

/-- C3: in every reachable `PrometheusHistogram` state the last (terminal)
bucket's cumulative count equals `count`, the bucket counts are
non-decreasing in the bucket index, and every further successful
`add_snapshot` call leaves `count`, `sum` and every bucket count at or
above their previous values. -/
theorem prometheus_histogram_invariants (h : PrometheusHistogram)
    (hr : Reachable h) :
    (h.buckets.map Prod.snd).getLast? = some h.count ∧
    List.Chain' (· ≤ ·) (h.buckets.map Prod.snd) ∧
    ∀ (sample : HistogramSample) (ts : ℕ) (h' : PrometheusHistogram),
      sample.measurement_unit ∈ staticMeasurementUnits →
      add_snapshot h sample ts = some h' →
      h.count ≤ h'.count ∧ h.sum ≤ h'.sum ∧
      ∀ j, cnt h.buckets j ≤ cnt h'.buckets j := by
  obtain ⟨hne, hlast, hchain⟩ := reachable_histOK hr
  refine ⟨?_, hchain, ?_⟩
  · rw [getLast?_counts h.buckets hne, hlast]
  · intro sample ts h' hwf hs
    obtain ⟨c1, _, hcount, hsum, hpoint, _, _, _⟩ := add_snapshot_step hne hs
    exact ⟨by omega, hsum hwf, hpoint⟩

/-- Concrete witness state for `prometheus_histogram_invariants`. -/
def histW : PrometheusHistogram := PrometheusHistogram.new [2] 0

/-- Concrete witness sample. -/
def sampleW : HistogramSample := ⟨[(1, 2)], MEASUREMENT_UNITS.time.seconds⟩

/-- State of `histW` after projecting `sampleW`. -/
def histW2 : PrometheusHistogram := ⟨[(2, 2), (f64MAX, 2)], 2, 2, 3⟩

/-- Closed instance of `prometheus_histogram_invariants` on a reachable
two-bucket histogram and one concrete snapshot application. -/
theorem prometheus_histogram_invariants_witness :
    (histW.buckets.map Prod.snd).getLast? = some histW.count ∧
    List.Chain' (· ≤ ·) (histW.buckets.map Prod.snd) ∧
    histW.count ≤ histW2.count ∧ histW.sum ≤ histW2.sum ∧
    cnt histW.buckets 1 ≤ cnt histW2.buckets 1 := by
  have T := prometheus_histogram_invariants histW (Reachable.init [2] 0)
  have hstep := T.2.2 sampleW 3 histW2
    (List.Mem.tail _ (List.Mem.tail _ (List.Mem.tail _ (List.Mem.head _))))
    (by norm_num [add_snapshot, histW, sampleW, histW2, PrometheusHistogram.new,
      create_buckets, processRecords, advance, bumpAt, bumpFrom, convert,
      MEASUREMENT_UNITS, f64MAX])
  exact ⟨T.1, T.2.1, hstep.1, hstep.2.1, hstep.2.2 1⟩

/-! ### In-bounds safety of the bucket sweep (claim C10) -/

/-- Upper bound stored in bucket `j` (0 outside the vector). -/
def bnd (l : BucketHolder) (j : ℕ) : ℚ := (l.map Prod.fst).getD j 0

lemma bnd_eq_of_get? {l : BucketHolder} {j : ℕ} {b : ℚ × ℕ}
    (h : l.get? j = some b) : bnd l j = b.1 := by
  unfold bnd
  have h1 : (l.map Prod.fst)[j]? = some b.1 := by
    rw [List.getElem?_map, ← List.get?_eq_getElem?, h]
    rfl
  rw [List.getD_eq_getElem?_getD, h1]
  rfl

lemma bnd_last (l : BucketHolder) (_hlen : 0 < l.length) {x : ℚ}
    (h : (l.map Prod.fst).getLast? = some x) : bnd l (l.length - 1) = x := by
  rw [List.getLast?_eq_getElem?] at h
  simp only [List.length_map] at h
  unfold bnd
  rw [List.getD_eq_getElem?_getD, h]
  rfl

/-- As long as the terminal bucket bound is `f64::MAX` and the converted
value is finite (at most `f64::MAX`), the advancing loop never reads past
the end of the bucket vector: with fuel covering the remaining buckets it
returns `some`, and the pointer it dereferences is always a valid index. -/
lemma advance_isSome (value : ℚ) (c : ℕ) :
    ∀ (fuel : ℕ) {C : BucketHolder} {idx : ℕ} {nb : ℚ},
      idx < C.length → nb = bnd C idx →
      (C.map Prod.fst).getLast? = some f64MAX →
      value ≤ f64MAX →
      C.length + 1 ≤ fuel + idx →
      (advance value c fuel C idx nb).isSome
  | 0, C, idx, nb, hidx, _, _, _, hfuel => by omega
  | fuel + 1, C, idx, nb, hidx, hnb, hlast, hval, hfuel => by
    rw [advance]
    by_cases hcond : value > nb ∧ idx ≤ C.length - 1
    · rw [if_pos hcond]
      rcases Nat.lt_or_ge (idx + 1) C.length with hlt | hge
      · have hlt2 : idx + 1 < (bumpAt C idx c).length := by
          rw [length_bumpAt]
          exact hlt
        have hg := List.get?_eq_get hlt2
        rw [hg]
        exact advance_isSome value c fuel (by rw [length_bumpAt]; exact hlt)
          (bnd_eq_of_get? hg).symm
          (by rw [map_fst_bumpAt]; exact hlast) hval
          (by rw [length_bumpAt]; omega)
      · exfalso
        have hidxeq : idx = C.length - 1 := by omega
        have hmax : nb = f64MAX := by
          rw [hnb, hidxeq]
          exact bnd_last C (by omega) hlast
        rw [hmax] at hcond
        exact absurd hcond.1 (not_lt.mpr hval)
    · rw [if_neg hcond]
      simp

/-- A successful advance preserves the bounds and keeps the pointer valid
and consistent with `next_bucket`. -/
lemma advance_post {value : ℚ} {c : ℕ} :
    ∀ (fuel : ℕ) {C : BucketHolder} {idx : ℕ} {nb : ℚ}
      {C' : BucketHolder} {idx' : ℕ} {nb' : ℚ},
      advance value c fuel C idx nb = some (C', idx', nb') →
      idx < C.length → nb = bnd C idx →
      C'.map Prod.fst = C.map Prod.fst ∧ idx' < C'.length ∧ nb' = bnd C' idx'
  | 0, C, idx, nb, C', idx', nb', heq, _, _ => by simp [advance] at heq
  | fuel + 1, C, idx, nb, C', idx', nb', heq, hidx, hnb => by
    rw [advance] at heq
    by_cases hcond : value > nb ∧ idx ≤ C.length - 1
    · rw [if_pos hcond] at heq
      cases hg : (bumpAt C idx c).get? (idx + 1) with
      | none =>
        rw [hg] at heq
        simp at heq
      | some b =>
        rw [hg] at heq
        have hlt : idx + 1 < C.length := by
          have hb := (List.get?_eq_some.mp hg).1
          rwa [length_bumpAt] at hb
        have hrec := advance_post fuel heq
          (by rw [length_bumpAt]; exact hlt) (bnd_eq_of_get? hg).symm
        exact ⟨hrec.1.trans (map_fst_bumpAt C idx c), hrec.2⟩
    · rw [if_neg hcond] at heq
      cases heq
      exact ⟨rfl, hidx, hnb⟩

/-- Processing a whole sample of finite converted values never panics. -/
lemma processRecords_isSome {u : MeasurementUnit} :
    ∀ (records : List (ℕ × ℕ)) {C : BucketHolder} {idx : ℕ} {nb : ℚ} {s : ℚ} {c : ℕ},
      idx < C.length → nb = bnd C idx →
      (C.map Prod.fst).getLast? = some f64MAX →
      (∀ r ∈ records, convert (r.1 : ℚ) u MEASUREMENT_UNITS.time.seconds ≤ f64MAX) →
      (processRecords u records C idx nb s c).isSome
  | [], C, idx, nb, s, c, _, _, _, _ => by simp [processRecords]
  | r :: rest, C, idx, nb, s, c, hidx, hnb, hlast, hfin => by
    rw [processRecords]
    have hadv := advance_isSome
      (convert (r.1 : ℚ) u MEASUREMENT_UNITS.time.seconds) c
      (C.length + 1) hidx hnb hlast
      (hfin r (List.Mem.head _)) (by omega)
    obtain ⟨t, ht⟩ := Option.isSome_iff_exists.mp hadv
    obtain ⟨C1, idx1, nb1⟩ := t
    rw [ht]
    obtain ⟨hfst, hidx1, hnb1⟩ := advance_post (C.length + 1) ht hidx hnb
    have hlast1 : (C1.map Prod.fst).getLast? = some f64MAX := by
      rw [hfst]
      exact hlast
    exact processRecords_isSome rest hidx1 hnb1 hlast1
      (fun q hq => hfin q (List.Mem.tail _ hq))

/-- C10: `add_snapshot` never indexes the bucket vector out of bounds.  The
bucket vector built by `PrometheusHistogram::new`/`create_buckets` always
ends with a terminal `f64::MAX` bound (second conjunct), and on any
histogram whose terminal bound is `f64::MAX`, a sample whose converted
values are finite (at most `f64::MAX`) is folded without the sweep ever
dereferencing an index past `len - 1` (first conjunct: no panic, i.e. the
result is `some`). -/
theorem add_snapshot_no_out_of_bounds :
    (∀ (h : PrometheusHistogram) (sample : HistogramSample) (ts : ℕ),
      (h.buckets.map Prod.fst).getLast? = some f64MAX →
      (∀ r ∈ sample.records,
        convert (r.1 : ℚ) sample.measurement_unit MEASUREMENT_UNITS.time.seconds
          ≤ f64MAX) →
      (add_snapshot h sample ts).isSome) ∧
    ∀ (bucketBounds : List ℚ) (now_ms : ℕ),
      ((PrometheusHistogram.new bucketBounds now_ms).buckets.map Prod.fst).getLast?
        = some f64MAX := by
  constructor
  · intro h sample ts hlast hfin
    rcases hb : h.buckets with _ | ⟨b0, rest⟩
    · simp [add_snapshot, hb]
    · rw [hb] at hlast
      simp only [add_snapshot, hb]
      have hps := processRecords_isSome sample.records
        (by simp : (0 : ℕ) < (b0 :: rest).length)
        (show b0.1 = bnd (b0 :: rest) 0 from rfl) hlast hfin
        (s := 0) (c := 0)
      obtain ⟨t, ht⟩ := Option.isSome_iff_exists.mp hps
      obtain ⟨C1, idx1, s1, c1⟩ := t
      rw [ht]
      simp
  · intro bucketBounds now_ms
    simp [PrometheusHistogram.new, create_buckets]

/-- Closed instance of `add_snapshot_no_out_of_bounds` on a histogram whose
sample contains a value above every configured finite bound. -/
theorem add_snapshot_no_out_of_bounds_witness :
    (add_snapshot (PrometheusHistogram.new [2] 0)
      ⟨[(5, 1)], MEASUREMENT_UNITS.time.seconds⟩ 4).isSome = true ∧
    ((PrometheusHistogram.new [2] 0).buckets.map Prod.fst).getLast? = some f64MAX := by
  constructor
  · exact add_snapshot_no_out_of_bounds.1 (PrometheusHistogram.new [2] 0)
      ⟨[(5, 1)], MEASUREMENT_UNITS.time.seconds⟩ 4
      (add_snapshot_no_out_of_bounds.2 [2] 0)
      (by intro r hr
          simp only [List.mem_singleton] at hr
          rw [hr]
          norm_num [convert, MEASUREMENT_UNITS, f64MAX])
  · exact add_snapshot_no_out_of_bounds.2 [2] 0

/-! ### Hiccup monitor coordinated-omission correction
(src/collectors/hiccups_collector/hiccup_monitor.rs) -/

/-- Model of the back-fill `while` loop inside `HiccupMonitor`'s `record`
function:

    while missing_value >= expected_interval_between_value_samples {
        histogram...observe(missing_value as f64);
        missing_value -= expected_interval_between_value_samples
    }

returning the list of observed values.  (The loop only runs under the outer
`expected_interval_between_value_samples > 0` guard; the conjunct here
restates that guard so the recursion is well founded.) -/
def missingLoop (missing_value expected_interval : ℕ) : List ℕ :=
  if _h : 0 < expected_interval ∧ expected_interval ≤ missing_value then
    missing_value :: missingLoop (missing_value - expected_interval) expected_interval
  else
    []
termination_by missing_value
decreasing_by omega

/-- Model of the nested `record` function of `HiccupMonitor::run`: the list
of values observed on the histogram for one hiccup observation `value` with
expected interval `expected_interval_between_value_samples`.  The observed
value is recorded once; then, if the interval is positive, the synthesized
values starting from `value.checked_sub(interval).unwrap_or(0)` are
recorded by `missingLoop`. -/
def record (value expected_interval_between_value_samples : ℕ) : List ℕ :=
  value ::
    (if 0 < expected_interval_between_value_samples then
      missingLoop (value - expected_interval_between_value_samples)
        expected_interval_between_value_samples
    else [])

lemma missingLoop_length (R : ℕ) (hR : 0 < R) :
    ∀ m, (missingLoop m R).length = m / R := by
  intro m
  induction m using Nat.strong_induction_on with
  | _ m ih =>
    rw [missingLoop, Nat.div_eq m R]
    by_cases h : 0 < R ∧ R ≤ m
    · rw [dif_pos h, if_pos h]
      simp only [List.length_cons]
      rw [ih (m - R) (by omega)]
    · rw [dif_neg h, if_neg h]
      rfl

lemma missingLoop_mem_bounds (R : ℕ) :
    ∀ m, ∀ v ∈ missingLoop m R, R ≤ v ∧ v ≤ m := by
  intro m
  induction m using Nat.strong_induction_on with
  | _ m ih =>
    intro v hv
    rw [missingLoop] at hv
    by_cases h : 0 < R ∧ R ≤ m
    · rw [dif_pos h] at hv
      rcases List.mem_cons.mp hv with hvm | hvtail
      · omega
      · have := ih (m - R) (by omega) v hvtail
        omega
    · rw [dif_neg h] at hv
      simp at hv

/-- C2: for a hiccup observation `h` recorded with expected interval `R`,
when `R > 0` the recorder writes exactly `1 + (h / R - 1)` values (`ℕ`
subtraction here is truncated, i.e. this is `1 + max(0, ⌊h/R⌋ - 1)`), each
of them at most `h` (and, being `u64` values, at least 0); when `R = 0` it
writes exactly one value. -/
theorem record_cor_spec (h R : ℕ) :
    (0 < R →
      (record h R).length = 1 + (h / R - 1) ∧ ∀ v ∈ record h R, v ≤ h) ∧
    (R = 0 → (record h R).length = 1) := by
  constructor
  · intro hR
    constructor
    · rcases Nat.lt_or_ge h R with hlt | hge
      · have h1 : h - R = 0 := by omega
        have h2 : h / R = 0 := Nat.div_eq_of_lt hlt
        simp only [record, if_pos hR, List.length_cons,
          missingLoop_length R hR, h1, h2, Nat.zero_div]
      · have h2 : h / R = (h - R) / R + 1 := by
          rw [Nat.div_eq h R, if_pos ⟨hR, hge⟩]
        simp only [record, if_pos hR, List.length_cons,
          missingLoop_length R hR]
        rw [h2]
        generalize (h - R) / R = x
        omega
    · intro v hv
      simp only [record, if_pos hR, List.mem_cons] at hv
      rcases hv with hvh | hvtail
      · omega
      · have := missingLoop_mem_bounds R (h - R) v hvtail
        omega
  · intro hR
    subst hR
    simp [record]

/-- Closed instances of `record_cor_spec` at `h = 7, R = 2` and
`h = 5, R = 0`. -/
theorem record_cor_spec_witness :
    (record 7 2).length = 1 + (7 / 2 - 1) ∧ (record 5 0).length = 1 :=
  ⟨((record_cor_spec 7 2).1 (by decide)).1, (record_cor_spec 5 0).2 rfl⟩

/-! ### Metric identity: validation and hashing (src/metrics/metric.rs) -/

/-- Model of `enum Error` (src/errors/mod.rs); the `Io` variant is omitted,
it is never produced by the embedded code. -/
inductive Error where
  | Msg (msg : String)
  | MetricAlreadyRegDifferently
deriving DecidableEq, Repr

/-- Model of `char::is_ascii`: the code point is at most `0x7F`. -/
def charIsAscii (c : Char) : Bool := c.toNat ≤ 127

/-- Model of `valid_start` inside `is_tag_metric_name`:
`b'a'..=b'z' | b'A'..=b'Z' | b'_' | b':'` on the ASCII code. -/
def valid_metric_start (c : Char) : Bool :=
  charIsAscii c &&
    ((97 ≤ c.toNat && c.toNat ≤ 122) || (65 ≤ c.toNat && c.toNat ≤ 90) ||
      c.toNat == 95 || c.toNat == 58)

/-- Model of `valid_char` inside `is_tag_metric_name` (adds `b'0'..=b'9'`). -/
def valid_metric_char (c : Char) : Bool :=
  charIsAscii c &&
    ((97 ≤ c.toNat && c.toNat ≤ 122) || (65 ≤ c.toNat && c.toNat ≤ 90) ||
      (48 ≤ c.toNat && c.toNat ≤ 57) || c.toNat == 95 || c.toNat == 58)

/-- Model of `str::starts_with(pred)`: the first character exists and
satisfies the predicate. -/
def starts_with_pred (s : String) (p : Char → Bool) : Bool :=
  match s.data with
  | [] => false
  | c :: _ => p c

/-- Model of `str::contains(pred)`: some character satisfies the predicate. -/
def contains_pred (s : String) (p : Char → Bool) : Bool := s.data.any p

/-- Model of `is_tag_metric_name` (valid metric names,
regex `[a-zA-Z_:][a-zA-Z0-9_:]*`). -/
def is_tag_metric_name (name : String) : Bool :=
  starts_with_pred name valid_metric_start &&
    !(contains_pred name (fun c => !valid_metric_char c))

/-- Model of `valid_start` inside `is_valid_tag_name` (no colon). -/
def valid_tag_name_start (c : Char) : Bool :=
  charIsAscii c &&
    ((97 ≤ c.toNat && c.toNat ≤ 122) || (65 ≤ c.toNat && c.toNat ≤ 90) ||
      c.toNat == 95)

/-- Model of `valid_char` inside `is_valid_tag_name`. -/
def valid_tag_name_char (c : Char) : Bool :=
  charIsAscii c &&
    ((97 ≤ c.toNat && c.toNat ≤ 122) || (65 ≤ c.toNat && c.toNat ≤ 90) ||
      (48 ≤ c.toNat && c.toNat ≤ 57) || c.toNat == 95)

/-- Model of `is_valid_tag_name` (regex `[a-zA-Z_][a-zA-Z0-9_]*`). -/
def is_valid_tag_name (name : String) : Bool :=
  starts_with_pred name valid_tag_name_start &&
    !(contains_pred name (fun c => !valid_tag_name_char c))

/-- Model of `valid_char` inside `is_valid_tag_value`
(`b'a'..=b'z' | b'A'..=b'Z' | b'0'..=b'9' | b'-' | b'_' | b'.' | b'/'`). -/
def valid_tag_value_char (c : Char) : Bool :=
  charIsAscii c &&
    ((97 ≤ c.toNat && c.toNat ≤ 122) || (65 ≤ c.toNat && c.toNat ≤ 90) ||
      (48 ≤ c.toNat && c.toNat ≤ 57) || c.toNat == 45 || c.toNat == 95 ||
      c.toNat == 46 || c.toNat == 47)

/-- Model of `is_valid_tag_value` (regex `[a-zA-Z0-9-_./]*`; note there is
no start-character requirement, the empty value is valid). -/
def is_valid_tag_value (name : String) : Bool :=
  !(contains_pred name (fun c => !valid_tag_value_char c))

/-- Model of `Vec::sort` on a vector of strings: the lexicographically
ascending sorted permutation. -/
def sortStrings (values : List String) : List String :=
  List.insertionSort (· ≤ ·) values

/-- Model of `MetricDescription::compute_metric_id`: hash of the sorted list
of the name and all tag values.  The opaque deterministic `DefaultHasher` is
modelled by an arbitrary function `hashFn`. -/
def compute_metric_id (hashFn : List String → ℕ) (name : String)
    (tags : List (String × String)) : ℕ :=
  hashFn (sortStrings (name :: tags.map Prod.snd))

/-- Model of `MetricDescription::compute_metric_definition_hash`: hash of
the sorted list of the name, the description and all tag names. -/
def compute_metric_definition_hash (hashFn : List String → ℕ)
    (name description : String) (tag_names : List String) : ℕ :=
  hashFn (sortStrings (name :: description :: tag_names))

/-- Model of `struct MetricDescription`. -/
structure MetricDescription where
  id : ℕ
  definition_hash : ℕ
  name : String
  description : String
  tag_names : List String
  tags : List (String × String)
deriving DecidableEq, Repr

/-- Model of `MetricDescription::validate_name`. -/
def validate_name (name : String) : Except Error Unit :=
  if !is_tag_metric_name name then
    Except.error (Error.Msg (name ++ " is not a valid metric name"))
  else
    Except.ok ()

/-- Model of `MetricDescription::validate_tag_names` (first invalid tag name
aborts with an error). -/
def validate_tag_names : List String → Except Error Unit
  | [] => Except.ok ()
  | n :: rest =>
    if !is_valid_tag_name n then
      Except.error (Error.Msg (n ++ " is not a valid tag name"))
    else
      validate_tag_names rest

/-- Model of `MetricDescription::validate_tag_values` (first invalid tag
value aborts with an error). -/
def validate_tag_values : List (String × String) → Except Error Unit
  | [] => Except.ok ()
  | t :: rest =>
    if !is_valid_tag_value t.2 then
      Except.error (Error.Msg (t.2 ++ " is not a valid tag value"))
    else
      validate_tag_values rest

/-- Model of `MetricDescription::from` (`from` is a Lean keyword, hence the
prime): validate the name, then the tag values, then the collected tag
names; on success derive `id` and `definition_hash` and build the record.
The `HashMap` tag iteration order is modelled by the association-list
order. -/
def MetricDescription.from' (hashFn : List String → ℕ)
    (name description : String) (tags : List (String × String)) :
    Except Error MetricDescription :=
  match validate_name name with
  | Except.error e => Except.error e
  | Except.ok _ =>
    match validate_tag_values tags with
    | Except.error e => Except.error e
    | Except.ok _ =>
      match validate_tag_names (tags.map Prod.fst) with
      | Except.error e => Except.error e
      | Except.ok _ =>
        Except.ok
          { id := compute_metric_id hashFn name tags
            definition_hash :=
              compute_metric_definition_hash hashFn name description
                (tags.map Prod.fst)
            name := name
            description := description
            tag_names := tags.map Prod.fst
            tags := tags }

/-- Spec character class `[A-Za-z_:]` (metric-name start). -/
def specNameStart (c : Char) : Prop :=
  (97 ≤ c.toNat ∧ c.toNat ≤ 122) ∨ (65 ≤ c.toNat ∧ c.toNat ≤ 90) ∨
    c.toNat = 95 ∨ c.toNat = 58

/-- Spec character class `[A-Za-z0-9_:]` (metric-name tail). -/
def specNameChar (c : Char) : Prop :=
  (97 ≤ c.toNat ∧ c.toNat ≤ 122) ∨ (65 ≤ c.toNat ∧ c.toNat ≤ 90) ∨
    (48 ≤ c.toNat ∧ c.toNat ≤ 57) ∨ c.toNat = 95 ∨ c.toNat = 58

/-- Spec character class `[A-Za-z_]` (tag-name start). -/
def specTagNameStart (c : Char) : Prop :=
  (97 ≤ c.toNat ∧ c.toNat ≤ 122) ∨ (65 ≤ c.toNat ∧ c.toNat ≤ 90) ∨
    c.toNat = 95

/-- Spec character class `[A-Za-z0-9_]` (tag-name tail). -/
def specTagNameChar (c : Char) : Prop :=
  (97 ≤ c.toNat ∧ c.toNat ≤ 122) ∨ (65 ≤ c.toNat ∧ c.toNat ≤ 90) ∨
    (48 ≤ c.toNat ∧ c.toNat ≤ 57) ∨ c.toNat = 95

/-- Spec character class `[A-Za-z0-9._/\-]` (tag-value characters). -/
def specTagValueChar (c : Char) : Prop :=
  (97 ≤ c.toNat ∧ c.toNat ≤ 122) ∨ (65 ≤ c.toNat ∧ c.toNat ≤ 90) ∨
    (48 ≤ c.toNat ∧ c.toNat ≤ 57) ∨ c.toNat = 46 ∨ c.toNat = 95 ∨
    c.toNat = 47 ∨ c.toNat = 45

/-- Written from the spec: the name matches `[A-Za-z_:][A-Za-z0-9_:]*`
(in particular, it is non-empty). -/
def matchesNameRegex (s : String) : Prop :=
  match s.data with
  | [] => False
  | c :: rest => specNameStart c ∧ ∀ d ∈ rest, specNameChar d

/-- Written from the spec: the tag name matches `[A-Za-z_][A-Za-z0-9_]*`. -/
def matchesTagNameRegex (s : String) : Prop :=
  match s.data with
  | [] => False
  | c :: rest => specTagNameStart c ∧ ∀ d ∈ rest, specTagNameChar d

/-- Written from the spec: the tag value matches `[A-Za-z0-9._/\-]*`
(the empty value matches). -/
def matchesTagValueRegex (s : String) : Prop :=
  ∀ d ∈ s.data, specTagValueChar d

lemma valid_metric_start_iff (c : Char) :
    valid_metric_start c = true ↔ specNameStart c := by
  simp only [valid_metric_start, charIsAscii, specNameStart, Bool.and_eq_true,
    Bool.or_eq_true, decide_eq_true_eq, Nat.beq_eq_true_eq]
  omega

lemma valid_metric_char_iff (c : Char) :
    valid_metric_char c = true ↔ specNameChar c := by
  simp only [valid_metric_char, charIsAscii, specNameChar, Bool.and_eq_true,
    Bool.or_eq_true, decide_eq_true_eq, Nat.beq_eq_true_eq]
  omega

lemma valid_tag_name_start_iff (c : Char) :
    valid_tag_name_start c = true ↔ specTagNameStart c := by
  simp only [valid_tag_name_start, charIsAscii, specTagNameStart,
    Bool.and_eq_true, Bool.or_eq_true, decide_eq_true_eq, Nat.beq_eq_true_eq]
  omega

lemma valid_tag_name_char_iff (c : Char) :
    valid_tag_name_char c = true ↔ specTagNameChar c := by
  simp only [valid_tag_name_char, charIsAscii, specTagNameChar,
    Bool.and_eq_true, Bool.or_eq_true, decide_eq_true_eq, Nat.beq_eq_true_eq]
  omega

lemma valid_tag_value_char_iff (c : Char) :
    valid_tag_value_char c = true ↔ specTagValueChar c := by
  simp only [valid_tag_value_char, charIsAscii, specTagValueChar,
    Bool.and_eq_true, Bool.or_eq_true, decide_eq_true_eq, Nat.beq_eq_true_eq]
  omega

lemma is_tag_metric_name_iff (s : String) :
    is_tag_metric_name s = true ↔ matchesNameRegex s := by
  unfold is_tag_metric_name starts_with_pred contains_pred matchesNameRegex
  cases hd : s.data with
  | nil => simp
  | cons c rest =>
    simp only [Bool.and_eq_true, Bool.not_eq_true', List.any_eq_false,
      Bool.not_eq_false, List.mem_cons, valid_metric_start_iff,
      valid_metric_char_iff]
    constructor
    · rintro ⟨h1, h2⟩
      exact ⟨h1, fun d hd2 => h2 d (Or.inr hd2)⟩
    · rintro ⟨h1, h2⟩
      refine ⟨h1, fun d hd2 => ?_⟩
      rcases hd2 with rfl | hd3
      · have : specNameStart d → specNameChar d := by
          unfold specNameStart specNameChar
          omega
        exact this h1
      · exact h2 d hd3

lemma is_valid_tag_name_iff (s : String) :
    is_valid_tag_name s = true ↔ matchesTagNameRegex s := by
  unfold is_valid_tag_name starts_with_pred contains_pred matchesTagNameRegex
  cases hd : s.data with
  | nil => simp
  | cons c rest =>
    simp only [Bool.and_eq_true, Bool.not_eq_true', List.any_eq_false,
      Bool.not_eq_false, List.mem_cons, valid_tag_name_start_iff,
      valid_tag_name_char_iff]
    constructor
    · rintro ⟨h1, h2⟩
      exact ⟨h1, fun d hd2 => h2 d (Or.inr hd2)⟩
    · rintro ⟨h1, h2⟩
      refine ⟨h1, fun d hd2 => ?_⟩
      rcases hd2 with rfl | hd3
      · have : specTagNameStart d → specTagNameChar d := by
          unfold specTagNameStart specTagNameChar
          omega
        exact this h1
      · exact h2 d hd3

lemma is_valid_tag_value_iff (s : String) :
    is_valid_tag_value s = true ↔ matchesTagValueRegex s := by
  unfold is_valid_tag_value contains_pred matchesTagValueRegex
  simp only [Bool.not_eq_true', List.any_eq_false, Bool.not_eq_false,
    valid_tag_value_char_iff]

lemma validate_name_ok_iff (name : String) :
    validate_name name = Except.ok () ↔ is_tag_metric_name name = true := by
  unfold validate_name
  by_cases h : is_tag_metric_name name <;> simp [h]

lemma validate_name_shape (name : String) :
    validate_name name = Except.ok () ∨
      ∃ m, validate_name name = Except.error (Error.Msg m) := by
  unfold validate_name
  by_cases h : is_tag_metric_name name
  · rw [if_neg (by simp [h])]
    exact Or.inl rfl
  · rw [if_pos (by simp [h])]
    exact Or.inr ⟨_, rfl⟩

lemma validate_tag_values_ok_iff :
    ∀ tags : List (String × String),
      validate_tag_values tags = Except.ok () ↔
        ∀ p ∈ tags, is_valid_tag_value p.2 = true
  | [] => by simp [validate_tag_values]
  | t :: rest => by
    rw [validate_tag_values]
    by_cases h : is_valid_tag_value t.2
    · rw [if_neg (by simp [h])]
      rw [validate_tag_values_ok_iff rest]
      simp [List.forall_mem_cons, h]
    · rw [if_pos (by simp [h])]
      simp [List.forall_mem_cons, h]

lemma validate_tag_values_shape :
    ∀ tags : List (String × String),
      validate_tag_values tags = Except.ok () ∨
        ∃ m, validate_tag_values tags = Except.error (Error.Msg m)
  | [] => Or.inl rfl
  | t :: rest => by
    rw [validate_tag_values]
    by_cases h : is_valid_tag_value t.2
    · rw [if_neg (by simp [h])]
      exact validate_tag_values_shape rest
    · rw [if_pos (by simp [h])]
      exact Or.inr ⟨_, rfl⟩

lemma validate_tag_names_ok_iff :
    ∀ tag_names : List String,
      validate_tag_names tag_names = Except.ok () ↔
        ∀ n ∈ tag_names, is_valid_tag_name n = true
  | [] => by simp [validate_tag_names]
  | n :: rest => by
    rw [validate_tag_names]
    by_cases h : is_valid_tag_name n
    · rw [if_neg (by simp [h])]
      rw [validate_tag_names_ok_iff rest]
      simp [List.forall_mem_cons, h]
    · rw [if_pos (by simp [h])]
      simp [List.forall_mem_cons, h]

lemma validate_tag_names_shape :
    ∀ tag_names : List String,
      validate_tag_names tag_names = Except.ok () ∨
        ∃ m, validate_tag_names tag_names = Except.error (Error.Msg m)
  | [] => Or.inl rfl
  | n :: rest => by
    rw [validate_tag_names]
    by_cases h : is_valid_tag_name n
    · rw [if_neg (by simp [h])]
      exact validate_tag_names_shape rest
    · rw [if_pos (by simp [h])]
      exact Or.inr ⟨_, rfl⟩

/-- C5: `MetricDescription::from` succeeds exactly when the name matches
`[A-Za-z_:][A-Za-z0-9_:]*` (so it is non-empty), every tag name matches
`[A-Za-z_][A-Za-z0-9_]*` and every tag value matches `[A-Za-z0-9._/\-]*`
(tag values may be empty); any failure is a validation (`Msg`) error, and in
particular the name `"1bad"` is always rejected. -/
theorem metric_description_from_spec (hashFn : List String → ℕ)
    (name description : String) (tags : List (String × String)) :
    ((MetricDescription.from' hashFn name description tags).isOk = true ↔
      matchesNameRegex name ∧
        ∀ p ∈ tags, matchesTagNameRegex p.1 ∧ matchesTagValueRegex p.2) ∧
    ((MetricDescription.from' hashFn name description tags).isOk = false →
      ∃ m, MetricDescription.from' hashFn name description tags =
        Except.error (Error.Msg m)) ∧
    ∃ m, MetricDescription.from' hashFn "1bad" description tags =
      Except.error (Error.Msg m) := by
  refine ⟨?_, ?_, ?_⟩
  · unfold MetricDescription.from'
    cases hvn : validate_name name with
    | error e =>
      refine iff_of_false (by simp [Except.isOk, Except.toBool]) ?_
      rintro ⟨h1, _⟩
      rw [(validate_name_ok_iff name).mpr ((is_tag_metric_name_iff name).mpr h1)]
        at hvn
      cases hvn
    | ok u =>
      cases u
      have hname : matchesNameRegex name :=
        (is_tag_metric_name_iff name).mp ((validate_name_ok_iff name).mp hvn)
      cases hvv : validate_tag_values tags with
      | error e =>
        refine iff_of_false (by simp [Except.isOk, Except.toBool]) ?_
        rintro ⟨_, h2⟩
        rw [(validate_tag_values_ok_iff tags).mpr
          (fun p hp => (is_valid_tag_value_iff p.2).mpr (h2 p hp).2)] at hvv
        cases hvv
      | ok u =>
        cases u
        cases hvt : validate_tag_names (tags.map Prod.fst) with
        | error e =>
          refine iff_of_false (by simp [Except.isOk, Except.toBool]) ?_
          rintro ⟨_, h2⟩
          rw [(validate_tag_names_ok_iff (tags.map Prod.fst)).mpr ?_] at hvt
          · cases hvt
          · intro n hn
            obtain ⟨p, hp, rfl⟩ := List.mem_map.mp hn
            exact (is_valid_tag_name_iff p.1).mpr (h2 p hp).1
        | ok u =>
          cases u
          refine iff_of_true rfl ⟨hname, fun p hp => ⟨?_, ?_⟩⟩
          · exact (is_valid_tag_name_iff p.1).mp
              ((validate_tag_names_ok_iff (tags.map Prod.fst)).mp hvt p.1
                (List.mem_map_of_mem Prod.fst hp))
          · exact (is_valid_tag_value_iff p.2).mp
              ((validate_tag_values_ok_iff tags).mp hvv p hp)
  · intro hfalse
    rcases validate_name_shape name with h1 | ⟨m, h1⟩
    · rcases validate_tag_values_shape tags with h2 | ⟨m, h2⟩
      · rcases validate_tag_names_shape (tags.map Prod.fst) with h3 | ⟨m, h3⟩
        · exfalso
          unfold MetricDescription.from' at hfalse
          rw [h1, h2, h3] at hfalse
          simp [Except.isOk, Except.toBool] at hfalse
        · exact ⟨m, by unfold MetricDescription.from'; rw [h1, h2, h3]⟩
      · exact ⟨m, by unfold MetricDescription.from'; rw [h1, h2]⟩
    · exact ⟨m, by unfold MetricDescription.from'; rw [h1]⟩
  · exact ⟨"1bad" ++ " is not a valid metric name", rfl⟩

/-- Closed instance of `metric_description_from_spec`: the invalid name
`"1bad"` is rejected. -/
theorem metric_description_from_spec_witness :
    (MetricDescription.from' (fun l => l.length) "1bad" "d" []).isOk = false := by
  obtain ⟨m, hm⟩ := (metric_description_from_spec (fun l => l.length) "1bad" "d" []).2.2
  rw [hm]
  rfl

lemma sortStrings_eq_of_perm {l1 l2 : List String} (h : l1.Perm l2) :
    sortStrings l1 = sortStrings l2 := by
  unfold sortStrings
  apply List.eq_of_perm_of_sorted (r := (· ≤ ·))
  · exact (List.perm_insertionSort _ l1).trans
      (h.trans (List.perm_insertionSort _ l2).symm)
  · exact List.sorted_insertionSort _ l1
  · exact List.sorted_insertionSort _ l2

/-- C6: permuting the tag map changes neither the derived `id` nor the
derived `definition_hash`; moreover `id` depends only on the name and the
multiset of tag values, and `definition_hash` only on the name, the
description and the multiset (set, since map keys are distinct) of tag
names.  The opaque `DefaultHasher` is universally quantified as `hashFn`. -/
theorem metric_hashes_perm_invariant (hashFn : List String → ℕ)
    (name description : String) (tags1 tags2 : List (String × String)) :
    (tags1.Perm tags2 →
      compute_metric_id hashFn name tags1 = compute_metric_id hashFn name tags2 ∧
      compute_metric_definition_hash hashFn name description (tags1.map Prod.fst) =
        compute_metric_definition_hash hashFn name description (tags2.map Prod.fst)) ∧
    ((tags1.map Prod.snd).Perm (tags2.map Prod.snd) →
      compute_metric_id hashFn name tags1 = compute_metric_id hashFn name tags2) ∧
    ∀ tag_names1 tag_names2 : List String, tag_names1.Perm tag_names2 →
      compute_metric_definition_hash hashFn name description tag_names1 =
        compute_metric_definition_hash hashFn name description tag_names2 := by
  have hid : ∀ t1 t2 : List (String × String), (t1.map Prod.snd).Perm (t2.map Prod.snd) →
      compute_metric_id hashFn name t1 = compute_metric_id hashFn name t2 := by
    intro t1 t2 hp
    unfold compute_metric_id
    exact congrArg hashFn (sortStrings_eq_of_perm (hp.cons name))
  have hdef : ∀ n1 n2 : List String, n1.Perm n2 →
      compute_metric_definition_hash hashFn name description n1 =
        compute_metric_definition_hash hashFn name description n2 := by
    intro n1 n2 hp
    unfold compute_metric_definition_hash
    exact congrArg hashFn (sortStrings_eq_of_perm ((hp.cons description).cons name))
  exact ⟨fun hp => ⟨hid tags1 tags2 (hp.map Prod.snd), hdef _ _ (hp.map Prod.fst)⟩,
    hid tags1 tags2, hdef⟩

/-- Closed instance of `metric_hashes_perm_invariant`: swapping two tags
preserves `id` and `definition_hash`. -/
theorem metric_hashes_perm_invariant_witness :
    compute_metric_id (fun l => l.length) "m" [("t1", "v1"), ("t2", "v2")] =
      compute_metric_id (fun l => l.length) "m" [("t2", "v2"), ("t1", "v1")] ∧
    compute_metric_definition_hash (fun l => l.length) "m" "d"
        ([("t1", "v1"), ("t2", "v2")].map Prod.fst) =
      compute_metric_definition_hash (fun l => l.length) "m" "d"
        ([("t2", "v2"), ("t1", "v1")].map Prod.fst) :=
  (metric_hashes_perm_invariant (fun l => l.length) "m" "d"
    [("t1", "v1"), ("t2", "v2")] [("t2", "v2"), ("t1", "v1")]).1
    (List.Perm.swap ("t2", "v2") ("t1", "v1") [])

/-! ### Metric registry (src/metrics/registry.rs) -/

/-- Model of `struct MetricHolder<T>`: the pinned description and the
`id → metric` sub-map, as an association list in insertion order. -/
structure MetricHolder (T : Type) where
  metric_description : MetricDescription
  metrics : List (ℕ × T)

/-- Model of `MetricHolder::new`. -/
def MetricHolder.new {T : Type} (metric_definition : MetricDescription) :
    MetricHolder T :=
  { metric_description := metric_definition, metrics := [] }

/-- Model of the name-keyed `DashMap` storage: an association list in
insertion order. -/
abbrev MetricsStorage (T : Type) := List (String × MetricHolder T)

/-- Keyed lookup in the storage (`metrics_storage.entry(name)`, occupied
case). -/
def storageFind {T : Type} (storage : MetricsStorage T) (name : String) :
    Option (MetricHolder T) :=
  (storage.find? (fun e => e.1 == name)).map Prod.snd

/-- Keyed lookup in a holder (`metric_holder.metrics.entry(metric_id)`,
occupied case). -/
def metricsFind {T : Type} (metrics : List (ℕ × T)) (metric_id : ℕ) :
    Option T :=
  (metrics.find? (fun e => e.1 == metric_id)).map Prod.snd

/-- Replace the holder stored under `name`. -/
def storageUpdate {T : Type} (storage : MetricsStorage T) (name : String)
    (h : MetricHolder T) : MetricsStorage T :=
  storage.map (fun e => if e.1 == name then (e.1, h) else e)

/-- Model of `Registry::get_or_add_metric`, returning the `Result` paired
with the storage after the call.  Line by line:
`entry(name).or_insert_with(MetricHolder::new)` pins a holder for the name
(inserting a fresh one when the name is absent); a pinned description whose
`definition_hash` differs from the incoming one fails with
`MetricAlreadyRegDifferently`; otherwise the entry for `metric_id` is
either reused (a recorder for the existing metric) or vacant, in which case
the metric is built, a recorder taken, and the metric inserted. -/
def get_or_add_metric {T R : Type} (metrics_storage : MetricsStorage T)
    (metric_description : MetricDescription)
    (builder : MetricDescription → T) (new_recorder : T → R) :
    Except Error R × MetricsStorage T :=
  match
    match storageFind metrics_storage metric_description.name with
    | some h => (h, metrics_storage)
    | none =>
      (MetricHolder.new metric_description,
        metrics_storage ++
          [(metric_description.name, MetricHolder.new metric_description)])
  with
  | (metric_holder, storage1) =>
    if metric_holder.metric_description.definition_hash ≠
        metric_description.definition_hash then
      (Except.error Error.MetricAlreadyRegDifferently, storage1)
    else
      match metricsFind metric_holder.metrics metric_description.id with
      | some metric => (Except.ok (new_recorder metric), storage1)
      | none =>
        (Except.ok (new_recorder (builder metric_description)),
          storageUpdate storage1 metric_description.name
            ⟨metric_holder.metric_description,
              metric_holder.metrics ++
                [(metric_description.id, builder metric_description)]⟩)

/-- C4: when an entry with the metric's name already exists, registration
with a different `definition_hash` fails with `MetricAlreadyRegDifferently`
and leaves the storage unchanged; with an equal hash it succeeds, returning
a recorder for the stored metric when `id` is present, and otherwise
building a new metric, storing it under `id`, and returning its recorder. -/
theorem get_or_add_metric_spec {T R : Type}
    (metrics_storage : MetricsStorage T)
    (metric_description : MetricDescription)
    (builder : MetricDescription → T) (new_recorder : T → R)
    (holder : MetricHolder T)
    (hfound : storageFind metrics_storage metric_description.name = some holder) :
    (holder.metric_description.definition_hash ≠
        metric_description.definition_hash →
      get_or_add_metric metrics_storage metric_description builder new_recorder =
        (Except.error Error.MetricAlreadyRegDifferently, metrics_storage)) ∧
    (holder.metric_description.definition_hash =
        metric_description.definition_hash →
      (∀ metric, metricsFind holder.metrics metric_description.id = some metric →
        get_or_add_metric metrics_storage metric_description builder new_recorder =
          (Except.ok (new_recorder metric), metrics_storage)) ∧
      (metricsFind holder.metrics metric_description.id = none →
        get_or_add_metric metrics_storage metric_description builder new_recorder =
          (Except.ok (new_recorder (builder metric_description)),
            storageUpdate metrics_storage metric_description.name
              ⟨holder.metric_description,
                holder.metrics ++
                  [(metric_description.id, builder metric_description)]⟩))) := by
  refine ⟨fun hne => ?_, fun heq => ⟨fun metric hm => ?_, fun hm => ?_⟩⟩
  · simp [get_or_add_metric, hfound, hne]
  · simp [get_or_add_metric, hfound, heq, hm]
  · simp [get_or_add_metric, hfound, heq, hm]

/-- Concrete description pinned in the witness registry. -/
def mdW : MetricDescription := ⟨1, 10, "m", "d", ["t"], [("t", "v")]⟩

/-- Conflicting description: same name `"m"`, different `definition_hash`. -/
def mdW2 : MetricDescription := ⟨2, 11, "m", "d2", ["t"], [("t", "w")]⟩

/-- Witness holder pinning `mdW` with one stored metric under id 1. -/
def holderW : MetricHolder ℕ := ⟨mdW, [(1, 42)]⟩

/-- Witness storage containing `holderW` under name `"m"`. -/
def storageW : MetricsStorage ℕ := [("m", holderW)]

/-- Closed instance of `get_or_add_metric_spec`: a conflicting registration
fails and leaves the storage unchanged; a compatible one returns a recorder
for the stored metric. -/
theorem get_or_add_metric_spec_witness :
    get_or_add_metric storageW mdW2 (fun _ => 0) (fun n => n) =
      (Except.error Error.MetricAlreadyRegDifferently, storageW) ∧
    get_or_add_metric storageW mdW (fun _ => 0) (fun n => n) =
      (Except.ok 42, storageW) :=
  ⟨(get_or_add_metric_spec storageW mdW2 (fun _ => 0) (fun n => n) holderW
      rfl).1 (by decide),
    ((get_or_add_metric_spec storageW mdW (fun _ => 0) (fun n => n) holderW
      rfl).2 rfl).1 42 rfl⟩

/-! ### Prometheus text encoder escaping
(src/exporters/prometheus_exporter/prometheus_encoder.rs) -/

/-- Model of Rust's `char::escape_default` on the characters the encoder
ever feeds it; `\t`, `\r`, `\n`, `\\`, quotes are escaped with a backslash,
and any other (printable-ASCII) character maps to itself. -/
def escape_default (c : Char) : List Char :=
  if c = '\t' then ['\\', 't']
  else if c = '\r' then ['\\', 'r']
  else if c = '\n' then ['\\', 'n']
  else if c = '\\' then ['\\', '\\']
  else if c = '\'' then ['\\', '\'']
  else if c = '"' then ['\\', '"']
  else [c]

/-- Character-list worker of `escape_string`, mirroring the `for c in
v.chars()` loop: `\` and newline are always escaped via `escape_default`,
the double quote only when `include_double_quote` is set, all other
characters are pushed unchanged. -/
def escape_string_chars (include_double_quote : Bool) : List Char → List Char
  | [] => []
  | c :: rest =>
    (if c = '\\' ∨ c = '\n' then escape_default c
     else if c = '"' ∧ include_double_quote then escape_default c
     else [c]) ++ escape_string_chars include_double_quote rest

/-- Model of `escape_string`. -/
def escape_string (v : String) (include_double_quote : Bool) : String :=
  String.mk (escape_string_chars include_double_quote v.data)

/-- Written from the spec: description (HELP) escaping replaces `\` by `\\`
and newline by `\n`, leaving every other character — including the double
quote — unchanged. -/
def help_escape_char (c : Char) : List Char :=
  if c = '\\' then ['\\', '\\']
  else if c = '\n' then ['\\', 'n']
  else [c]

/-- Written from the spec: label-value escaping additionally replaces `"`
by `\"`. -/
def label_escape_char (c : Char) : List Char :=
  if c = '\\' then ['\\', '\\']
  else if c = '\n' then ['\\', 'n']
  else if c = '"' then ['\\', '"']
  else [c]

/-- Model of the `# HELP` line written by `encode_histogram`: the
description is escaped with `include_double_quote = false`. -/
def help_line (name help : String) : String :=
  "# HELP " ++ name ++ " " ++ escape_string help false ++ "\n"

/-- Worker of `add_label_pairs` carrying the separator state (`{` first,
then `,`): each label is written `name="value"` with the value escaped with
`include_double_quote = true`. -/
def label_pairs_go : List (String × String) → String → String
  | [], _ => ""
  | (label_name, label_value) :: rest, separator =>
    separator ++ label_name ++ "=\"" ++ escape_string label_value true ++
      "\"" ++ label_pairs_go rest ","

/-- Model of `add_label_pairs`: braces are omitted when there are no labels
at all, otherwise tags come first and additional labels afterwards. -/
def add_label_pairs (tags additional_labels : List (String × String)) :
    String :=
  if tags.isEmpty && additional_labels.isEmpty then ""
  else
    label_pairs_go tags "\x7b" ++
      label_pairs_go additional_labels (if tags.isEmpty then "\x7b" else ",") ++
      "\x7d"

lemma escape_string_chars_false :
    ∀ l : List Char, escape_string_chars false l = l.flatMap help_escape_char
  | [] => rfl
  | c :: rest => by
    rw [escape_string_chars, List.flatMap_cons, escape_string_chars_false rest]
    congr 1
    by_cases h1 : c = '\\'
    · subst h1
      rfl
    · by_cases h2 : c = '\n'
      · subst h2
        rfl
      · rw [if_neg (by simp [h1, h2]), if_neg (by simp),
          help_escape_char, if_neg h1, if_neg h2]

lemma escape_string_chars_true :
    ∀ l : List Char, escape_string_chars true l = l.flatMap label_escape_char
  | [] => rfl
  | c :: rest => by
    rw [escape_string_chars, List.flatMap_cons, escape_string_chars_true rest]
    congr 1
    by_cases h1 : c = '\\'
    · subst h1
      rfl
    · by_cases h2 : c = '\n'
      · subst h2
        rfl
      · by_cases h3 : c = '"'
        · subst h3
          rfl
        · rw [if_neg (by simp [h1, h2]), if_neg (by simp [h3]),
            label_escape_char, if_neg h1, if_neg h2, if_neg h3]

/-- C9: the encoder's escaping replaces each `\` with `\\` and each newline
with `\n`; when encoding a label value (`include_double_quote = true`, as
`add_label_pairs` does) it additionally replaces each `"` with `\"`, while
a HELP description (`include_double_quote = false`, as the HELP line does)
keeps double quotes; every other character is unchanged. -/
theorem escape_string_spec (v name : String) :
    escape_string v false = String.mk (v.data.flatMap help_escape_char) ∧
    escape_string v true = String.mk (v.data.flatMap label_escape_char) ∧
    help_line name v =
      "# HELP " ++ name ++ " " ++
        String.mk (v.data.flatMap help_escape_char) ++ "\n" ∧
    label_pairs_go [(name, v)] "\x7b" =
      "\x7b" ++ name ++ "=\"" ++
        String.mk (v.data.flatMap label_escape_char) ++ "\"" := by
  have hf : escape_string v false = String.mk (v.data.flatMap help_escape_char) := by
    unfold escape_string
    rw [escape_string_chars_false]
  have ht : escape_string v true = String.mk (v.data.flatMap label_escape_char) := by
    unfold escape_string
    rw [escape_string_chars_true]
  refine ⟨hf, ht, ?_, ?_⟩
  · rw [help_line, hf]
  · rw [label_pairs_go, label_pairs_go, ht]
    simp [String.append_assoc]
